import Mathlib

/-!
Shallow embedding of the text-edit patch engine of the go-lsp repository
(`Edit`, `validate`, `apply`, `sortEdits`, `EditsFromDiffEdits`,
`EditsToDiffEdits`) and of the detached context of `protocol.go`, together
with theorems settling the specification claims.

Buffers and replacement strings are modelled as `List Char` (one element
per byte); Go `int` values are modelled as `Int`, with the wrap-around of
64-bit subtraction made explicit where the source relies on it.
-/

namespace GoLsp

/-- Edit describes the replacement of a portion of a text file:
byte offsets `Start`/`End` of the region to replace and the replacement
`New` (Go: `type Edit struct { Start, End int; New string }`). -/
structure Edit where
  Start : Int
  End : Int
  New : List Char
deriving DecidableEq, Repr

def twoPow63 : Int := 9223372036854775808

def twoPow64 : Int := 18446744073709551616

/-- Wrap an unbounded integer to the value a Go `int` (64-bit, two's
complement) would hold. -/
def wrap64 (x : Int) : Int := (x + twoPow63) % twoPow64 - twoPow63

/-- The comparison of `editsSort.Less`: `cmp := a[i].Start - a[j].Start`
computed in Go `int` arithmetic (wrapping); if `cmp != 0` the result is
`cmp < 0`, otherwise `a[i].End < a[j].End`. -/
def editsLess (a b : Edit) : Bool :=
  if wrap64 (a.Start - b.Start) ≠ 0 then decide (wrap64 (a.Start - b.Start) < 0)
  else decide (a.End < b.End)

/-- Go `sort.IsSorted`: no element is `Less` than its predecessor. -/
def isSorted : List Edit → Bool
  | [] => true
  | [_] => true
  | x :: y :: rest => !(editsLess y x) && isSorted (y :: rest)

/-- Stable insertion of `x` into `l`: `x` goes in front of the first
element that is not `Less` than it, so an element equal under the
comparator to `x` but already present stays in front of `x` only if it
compares `Less`; ties keep the earlier-input element first. -/
def insertStable (x : Edit) : List Edit → List Edit
  | [] => [x]
  | y :: ys => if editsLess y x then y :: insertStable x ys else x :: y :: ys

/-- Go `sortEdits` orders a slice of Edits by the `editsSort` comparator
using a stable sort (Go: `sort.Stable(editsSort(edits))`), modelled by
stable insertion sort. -/
def sortEdits : List Edit → List Edit
  | [] => []
  | x :: xs => insertStable x (sortEdits xs)

/-- The sequence `validate` actually scans: the input itself when it is
already sorted, otherwise a sorted clone. -/
def canonical (edits : List Edit) : List Edit :=
  if isSorted edits then edits else sortEdits edits

/-- The two error kinds of `validate`: `diff has out-of-bounds edits`
and `diff has overlapping edits`. -/
inductive DiffError
  | outOfBounds
  | overlapping
deriving DecidableEq, Repr

/-- Size contribution of one edit in `validate`:
`size += len(edit.New) + edit.Start - edit.End`. -/
def contrib (e : Edit) : Int := (e.New.length : Int) + e.Start - e.End

/-- The check-and-size loop of `validate`, with the accumulator `size`
and the cursor `lastEnd` made explicit. -/
def validateLoop (L : Int) (size lastEnd : Int) : List Edit → Except DiffError Int
  | [] => .ok size
  | e :: rest =>
    if e.Start < 0 ∨ e.Start > e.End ∨ e.End > L then .error .outOfBounds
    else if e.Start < lastEnd then .error .overlapping
    else validateLoop L (size + contrib e) e.End rest

/-- Go `validate` checks that edits are consistent with `src` and returns
the (canonically ordered) edits and the size of the patched output. -/
def validate (src : List Char) (edits : List Edit) : Except DiffError (List Edit × Int) :=
  (validateLoop (src.length : Int) (src.length : Int) 0 (canonical edits)).map
    (fun s => (canonical edits, s))

/-- Go slice expression `src[a:b]`. -/
def slice (src : List Char) (a b : Int) : List Char :=
  (src.drop a.toNat).take (b - a).toNat

/-- The patch loop of `apply`: copy `src[lastEnd:edit.Start]` when
`lastEnd < edit.Start`, append `edit.New`, advance `lastEnd` to
`edit.End`; after the loop append `src[lastEnd:]`. -/
def patch (src : List Char) : Int → List Edit → List Char
  | lastEnd, [] => src.drop lastEnd.toNat
  | lastEnd, e :: rest =>
    (if lastEnd < e.Start then slice src lastEnd e.Start else []) ++ e.New ++ patch src e.End rest

/-- Outcome of `apply`: a result, a returned error, or the
`panic("wrong size")` that fires when the built output's length differs
from the size computed by `validate`. -/
inductive ApplyResult
  | ok (out : List Char)
  | err (e : DiffError)
  | wrongSize
deriving DecidableEq, Repr

/-- Go `apply` applies a sequence of edits to the src buffer and returns
the result; it validates first, patches, and panics (modelled as
`ApplyResult.wrongSize`) if the output length differs from the computed
size. -/
def apply (src : List Char) (edits : List Edit) : ApplyResult :=
  match validate src edits with
  | .error e => .err e
  | .ok (es, size) =>
    if ((patch src 0 es).length : Int) = size then .ok (patch src 0 es) else .wrongSize

end GoLsp

namespace GoLsp

/-- A protocol position: line and character. -/
structure Position where
  line : Int
  character : Int
deriving DecidableEq, Repr

/-- A protocol range: start and end positions. -/
structure Range where
  start : Position
  End : Position
deriving DecidableEq, Repr

/-- A protocol text edit: a range plus replacement text. -/
structure TextEdit where
  range : Range
  newText : List Char
deriving DecidableEq, Repr

/-- Error produced by the external Mapper capability (an opaque Go
`error` in the source). -/
inductive MapError
  | mappingError
deriving DecidableEq, Repr

/-- The external Mapper capability, consumed opaquely by the position
converter: `OffsetRange(start, end) (Range, error)` and
`RangeOffsets(Range) (start, end, error)`. -/
structure Mapper where
  OffsetRange : Int → Int → Except MapError Range
  RangeOffsets : Range → Except MapError (Int × Int)

/-- Conversion loop of `EditsFromDiffEdits`: for each edit ask the
Mapper for the range of `[Start, End)`; stop at the first error. -/
def fromLoop (m : Mapper) : List Edit → Except MapError (List TextEdit)
  | [] => .ok []
  | e :: rest =>
    match m.OffsetRange e.Start e.End with
    | .error err => .error err
    | .ok rng =>
      match fromLoop m rest with
      | .error err => .error err
      | .ok tail => .ok ({ range := rng, newText := e.New } :: tail)

/-- Go `EditsFromDiffEdits` converts Edits to LSP TextEdits, sorting a
clone of the input first (`edits = slices.Clone(edits); sortEdits(edits)`). -/
def EditsFromDiffEdits (m : Mapper) (edits : List Edit) : Except MapError (List TextEdit) :=
  fromLoop m (sortEdits edits)

/-- Conversion loop of `EditsToDiffEdits`: for each text edit ask the
Mapper for the byte offsets of its range; stop at the first error. -/
def toLoop (m : Mapper) : List TextEdit → Except MapError (List Edit)
  | [] => .ok []
  | te :: rest =>
    match m.RangeOffsets te.range with
    | .error err => .error err
    | .ok (s, e) =>
      match toLoop m rest with
      | .error err => .error err
      | .ok tail => .ok ({ Start := s, End := e, New := te.newText } :: tail)

/-- Go `EditsToDiffEdits` converts LSP TextEdits to Edits (the Go `nil`
input case coincides with the empty list here). -/
def EditsToDiffEdits (m : Mapper) (tes : List TextEdit) : Except MapError (List Edit) :=
  toLoop m tes

end GoLsp

namespace GoLsp

/-- A Go `context.Context`, modelled by its four observations: the
deadline (`none` when `ok` is false), the `Done` channel (`none` when
nil), the error (`none` when nil) and the value lookup. -/
structure Context (Key Val Err : Type) where
  deadline : Option Int
  done : Option Unit
  err : Option Err
  value : Key → Option Val

/-- Go `detach` returns a context that keeps all the values of its parent
context but detaches from the cancellation and error handling
(`detachedContext`: zero deadline, nil Done, nil Err, delegated Value). -/
def detach {Key Val Err : Type} (ctx : Context Key Val Err) : Context Key Val Err :=
  { deadline := none, done := none, err := none, value := ctx.value }

end GoLsp

namespace GoLsp

/-- Contents of slot `r` of a store of Go slices. -/
def readSlice (st : List (List Edit)) (r : Nat) : List Edit := st.getD r []

/-- Model of `validate` with the Go slice store explicit: slot `r` holds the
caller's slice; when the input is not sorted, `slices.Clone` allocates a
fresh slot and `sortEdits` sorts that fresh slot in place. -/
def validateHeap (src : List Char) (st : List (List Edit)) (r : Nat) :
    List (List Edit) × Except DiffError (Nat × Int) :=
  let edits := readSlice st r
  if isSorted edits then
    (st, (validateLoop (src.length : Int) (src.length : Int) 0 edits).map (fun s => (r, s)))
  else
    let r2 := st.length
    let st1 := st ++ [readSlice st r]
    let st2 := st1.set r2 (sortEdits (readSlice st1 r2))
    (st2, (validateLoop (src.length : Int) (src.length : Int) 0 (readSlice st2 r2)).map
      (fun s => (r2, s)))

/-- Model of `EditsFromDiffEdits` with the Go slice store explicit: it always
clones into a fresh slot and sorts the fresh slot in place. -/
def editsFromDiffEditsHeap (m : Mapper) (st : List (List Edit)) (r : Nat) :
    List (List Edit) × Except MapError (List TextEdit) :=
  let r2 := st.length
  let st1 := st ++ [readSlice st r]
  let st2 := st1.set r2 (sortEdits (readSlice st1 r2))
  (st2, fromLoop m (readSlice st2 r2))

/-- A concrete Mapper placing every offset on line zero; it satisfies
the round-trip hypothesis and is used to instantiate the
Mapper-parametric theorems. -/
def lineZeroMapper : Mapper :=
  { OffsetRange := fun s e => .ok ⟨⟨0, s⟩, ⟨0, e⟩⟩
    RangeOffsets := fun r => .ok (r.start.character, r.End.character) }

/-- Bounds check of one edit in `validate`, as a predicate. -/
def inBounds (L : Int) (e : Edit) : Bool :=
  decide (0 ≤ e.Start ∧ e.Start ≤ e.End ∧ e.End ≤ L)

/-- Overlap check of a scan in `validate`, as a predicate: each edit's
Start is at least the running `lastEnd`. -/
def chainOk : Int → List Edit → Bool
  | _, [] => true
  | le, e :: rest => decide (le ≤ e.Start) && chainOk e.End rest

/-- The `(Start, End)` key an edit is ordered by. -/
def editKey (e : Edit) : Int × Int := (e.Start, e.End)

/-- Lexicographic order on `(start, end)` keys. -/
def keyLe (p q : Int × Int) : Prop := p.1 < q.1 ∨ (p.1 = q.1 ∧ p.2 ≤ q.2)

/-- Lexicographic order on edits by `(Start, End)`. -/
def leLex (a b : Edit) : Prop := keyLe (editKey a) (editKey b)

/-- Start offsets that a Go byte offset can actually take: non-negative
and representable in an int64. -/
def startInRange (e : Edit) : Prop := 0 ≤ e.Start ∧ e.Start < twoPow63

instance (e : Edit) : Decidable (startInRange e) :=
  instDecidableAnd

instance : IsAntisymm (Int × Int) keyLe :=
  ⟨fun p q h1 h2 => by
    simp only [keyLe] at h1 h2
    exact Prod.ext (by omega) (by omega)⟩

end GoLsp

namespace GoLsp

theorem insertStable_perm (x : Edit) (l : List Edit) : List.Perm (insertStable x l) (x :: l) := by
  induction l with
  | nil => exact List.Perm.refl _
  | cons y ys ih =>
    simp only [insertStable]
    split
    · exact (ih.cons y).trans (List.Perm.swap x y ys)
    · exact List.Perm.refl _

theorem sortEdits_perm (l : List Edit) : List.Perm (sortEdits l) l := by
  induction l with
  | nil => exact List.Perm.refl _
  | cons x xs ih => exact (insertStable_perm x (sortEdits xs)).trans (ih.cons x)

theorem canonical_perm (l : List Edit) : List.Perm (canonical l) l := by
  unfold canonical
  split
  · exact List.Perm.refl _
  · exact sortEdits_perm l

theorem validateLoop_ok_sum {L s0 le s : Int} {l : List Edit}
    (h : validateLoop L s0 le l = .ok s) : s = s0 + (l.map contrib).sum := by
  induction l generalizing s0 le with
  | nil =>
    simp only [validateLoop] at h
    injection h with h
    simp [h]
  | cons e rest ih =>
    simp only [validateLoop] at h
    split at h
    · exact Except.noConfusion h
    · split at h
      · exact Except.noConfusion h
      · have hrec := ih h
        simp only [List.map_cons, List.sum_cons]
        omega

theorem validate_ok_parts {src : List Char} {edits es : List Edit} {size : Int}
    (h : validate src edits = .ok (es, size)) :
    es = canonical edits ∧
      validateLoop (src.length : Int) (src.length : Int) 0 (canonical edits) = .ok size := by
  unfold validate at h
  cases hv : validateLoop (src.length : Int) (src.length : Int) 0 (canonical edits) with
  | error e => rw [hv] at h; exact Except.noConfusion h
  | ok s =>
    rw [hv] at h
    simp only [Except.map] at h
    injection h with h
    injection h with h1 h2
    exact ⟨h1.symm, by rw [h2]⟩

theorem patch_length {src : List Char} {le s0 s : Int} {l : List Edit}
    (h : validateLoop (src.length : Int) s0 le l = .ok s)
    (h0 : 0 ≤ le) (hle : le ≤ (src.length : Int)) :
    ((patch src le l).length : Int) = s - s0 + ((src.length : Int) - le) := by
  induction l generalizing le s0 with
  | nil =>
    simp only [validateLoop] at h
    injection h with h
    simp only [patch, List.length_drop]
    omega
  | cons e rest ih =>
    simp only [validateLoop] at h
    split at h
    · exact Except.noConfusion h
    · rename_i hb
      split at h
      · exact Except.noConfusion h
      · rename_i hov
        push_neg at hb
        obtain ⟨h1, h2, h3⟩ := hb
        push_neg at hov
        have hrec := ih h (le_trans h1 h2) h3
        simp only [patch, List.length_append]
        have hslice : (((if le < e.Start then slice src le e.Start else []).length : Nat) : Int)
            = e.Start - le := by
          split
          · simp only [slice, List.length_take, List.length_drop]
            omega
          · simp only [List.length_nil]
            omega
        simp only [contrib] at hrec
        push_cast
        push_cast at hslice hrec
        omega

end GoLsp

namespace GoLsp

theorem patch_length_eq_size {src : List Char} {edits es : List Edit} {size : Int}
    (h : validate src edits = .ok (es, size)) :
    ((patch src 0 es).length : Int) = size := by
  obtain ⟨hes, hloop⟩ := validate_ok_parts h
  subst hes
  have hp := patch_length hloop (le_refl 0) (Int.natCast_nonneg src.length)
  omega

/-- C1: whenever `validate` succeeds on a buffer and an edit sequence,
`apply` succeeds and the length of the returned buffer equals the length
of the source plus the sum over all edits of `len(New) - (End - Start)`. -/
theorem apply_ok_length (src : List Char) (edits es : List Edit) (size : Int)
    (h : validate src edits = .ok (es, size)) :
    ∃ out, apply src edits = .ok out ∧
      (out.length : Int) = (src.length : Int) +
        (edits.map (fun e => (e.New.length : Int) - (e.End - e.Start))).sum := by
  obtain ⟨hes, hloop⟩ := validate_ok_parts h
  have hlen := patch_length_eq_size h
  subst hes
  refine ⟨patch src 0 (canonical edits), ?_, ?_⟩
  · unfold apply
    rw [h]
    dsimp only
    rw [if_pos hlen]
  · rw [hlen]
    have hsum := validateLoop_ok_sum hloop
    have hperm : ((canonical edits).map contrib).sum = (edits.map contrib).sum :=
      List.Perm.sum_eq (List.Perm.map contrib (canonical_perm edits))
    have hfun : (fun e : Edit => (e.New.length : Int) - (e.End - e.Start)) = contrib := by
      funext e
      simp only [contrib]
      ring
    rw [hfun]
    omega

/-- C1 witness: a concrete instantiation of `apply_ok_length`. -/
theorem apply_ok_length_witness :
    ∃ out, apply "abc".data [⟨1, 2, "XY".data⟩] = .ok out ∧
      (out.length : Int) = ("abc".data.length : Int) +
        (([⟨1, 2, "XY".data⟩] : List Edit).map
          (fun e => (e.New.length : Int) - (e.End - e.Start))).sum :=
  apply_ok_length "abc".data [⟨1, 2, "XY".data⟩] [⟨1, 2, "XY".data⟩] 4 rfl

/-- C2: the internal "wrong size" panic of `apply` is unreachable: for
every buffer and edit sequence, `apply` either returns a result or
returns the validation error, and the patch loop's output always has
exactly the size computed by `validate`. -/
theorem apply_never_panics (src : List Char) (edits : List Edit) :
    apply src edits ≠ ApplyResult.wrongSize := by
  unfold apply
  split
  · intro hc
    exact ApplyResult.noConfusion hc
  · rename_i es size heq
    rw [if_pos (patch_length_eq_size heq)]
    intro hc
    exact ApplyResult.noConfusion hc

end GoLsp

namespace GoLsp

/-- C9: the detached context reports no deadline, a nil Done channel
and a nil Err, and delegates every Value lookup to its parent. -/
theorem detach_strips_cancellation_keeps_values {Key Val Err : Type}
    (ctx : Context Key Val Err) :
    (detach ctx).deadline = none ∧ (detach ctx).done = none ∧ (detach ctx).err = none ∧
      ∀ k, (detach ctx).value k = ctx.value k :=
  ⟨rfl, rfl, rfl, fun _ => rfl⟩

theorem readSlice_append_left {st : List (List Edit)} {c : List Edit} {r : Nat}
    (h : r < st.length) : readSlice (st ++ [c]) r = readSlice st r := by
  simp [readSlice, List.getD_eq_getElem?_getD, List.getElem?_append, h]

theorem readSlice_set_ne {st : List (List Edit)} {c : List Edit} {r i : Nat}
    (h : r ≠ i) : readSlice (st.set i c) r = readSlice st r := by
  simp [readSlice, List.getD_eq_getElem?_getD, List.getElem?_set_ne (Ne.symm h)]

/-- C10: neither `validate` nor `EditsFromDiffEdits` writes through the
caller's slice: in the explicit-store model the slot holding the
caller's slice is unchanged by both calls, because sorting only ever
happens in place on a freshly cloned slot. -/
theorem caller_slice_unchanged (src : List Char) (m : Mapper)
    (st : List (List Edit)) (r : Nat) (hr : r < st.length) :
    readSlice (validateHeap src st r).1 r = readSlice st r ∧
      readSlice (editsFromDiffEditsHeap m st r).1 r = readSlice st r := by
  constructor
  · unfold validateHeap
    dsimp only
    split
    · rfl
    · rw [readSlice_set_ne (Nat.ne_of_lt hr), readSlice_append_left hr]
  · unfold editsFromDiffEditsHeap
    dsimp only
    rw [readSlice_set_ne (Nat.ne_of_lt hr), readSlice_append_left hr]

/-- C10 witness: `caller_slice_unchanged` at a concrete store holding
one unsorted slice. -/
theorem caller_slice_unchanged_witness :
    readSlice (validateHeap "ab".data [[⟨1, 1, "Y".data⟩, ⟨0, 0, "X".data⟩]] 0).1 0 =
        readSlice [[⟨1, 1, "Y".data⟩, ⟨0, 0, "X".data⟩]] 0 ∧
      readSlice (editsFromDiffEditsHeap lineZeroMapper
          [[⟨1, 1, "Y".data⟩, ⟨0, 0, "X".data⟩]] 0).1 0 =
        readSlice [[⟨1, 1, "Y".data⟩, ⟨0, 0, "X".data⟩]] 0 :=
  caller_slice_unchanged "ab".data lineZeroMapper
    [[⟨1, 1, "Y".data⟩, ⟨0, 0, "X".data⟩]] 0 (by decide)

end GoLsp

namespace GoLsp

theorem editsLess_of_eq_key {x y : Edit} (hs : y.Start = x.Start) (he : y.End = x.End) :
    editsLess y x = false := by
  unfold editsLess
  rw [hs, he]
  have h0 : wrap64 (x.Start - x.Start) = 0 := by
    rw [sub_self]
    decide
  rw [if_neg (by rw [h0]; exact fun hc => hc rfl)]
  simp

theorem filter_insertStable_of_neg (p : Edit → Bool) (x : Edit) (l : List Edit)
    (hx : p x = false) : (insertStable x l).filter p = l.filter p := by
  induction l with
  | nil => simp [insertStable, hx]
  | cons y ys ih =>
    simp only [insertStable]
    split
    · simp only [List.filter_cons, ih]
    · simp [List.filter_cons, hx]

theorem filter_insertStable_of_pos (p : Edit → Bool) (x : Edit) (l : List Edit)
    (hx : p x = true) (hk : ∀ y, editsLess y x = true → p y = false) :
    (insertStable x l).filter p = x :: l.filter p := by
  induction l with
  | nil => simp [insertStable, hx]
  | cons y ys ih =>
    simp only [insertStable]
    split
    · rename_i hyx
      simp [List.filter_cons, hk y hyx, ih]
    · simp [List.filter_cons, hx]

theorem filter_sortEdits (p : Edit → Bool)
    (hstable : ∀ x y, p x = true → editsLess y x = true → p y = false) (l : List Edit) :
    (sortEdits l).filter p = l.filter p := by
  induction l with
  | nil => rfl
  | cons x xs ih =>
    simp only [sortEdits]
    by_cases hx : p x = true
    · rw [filter_insertStable_of_pos p x _ hx (fun y hy => hstable x y hx hy), ih]
      simp [List.filter_cons, hx]
    · have hx' : p x = false := by
        cases hpx : p x
        · rfl
        · exact absurd hpx hx
      rw [filter_insertStable_of_neg p x _ hx', ih]
      simp [List.filter_cons, hx']

/-- C4: ties are stable — for every key `(s, t)`, the edits with
`Start = s` and `End = t` occur in the canonically sorted sequence in
their original input order; and applying the two insertions
`[{1,1,"X"}, {1,1,"Y"}]` to `"ab"` yields `"aXYb"`. -/
theorem tie_break_stable :
    (∀ (edits : List Edit) (s t : Int),
      (canonical edits).filter (fun e => decide (e.Start = s ∧ e.End = t)) =
        edits.filter (fun e => decide (e.Start = s ∧ e.End = t))) ∧
      apply "ab".data [⟨1, 1, "X".data⟩, ⟨1, 1, "Y".data⟩] = .ok "aXYb".data := by
  constructor
  · intro edits s t
    unfold canonical
    split
    · rfl
    · refine filter_sortEdits _ ?_ edits
      intro x y hx hyx
      cases hpy : (fun e : Edit => decide (e.Start = s ∧ e.End = t)) y
      · exact hpy
      · exfalso
        simp only [decide_eq_true_eq] at hx hpy
        rw [editsLess_of_eq_key (by omega) (by omega)] at hyx
        exact Bool.noConfusion hyx
  · decide

end GoLsp

namespace GoLsp

/-- C6 counterexample: at the representable int64 offsets
`Start = 2^63 - 1` and `Start = -1` the comparator reports the first
edit strictly before the second although its Start is larger — the Go
`int` subtraction in `editsSort.Less` overflows — so the comparator is
not the lexicographic `(start, end)` order on all representable values. -/
theorem editsLess_not_lex_on_representable :
    editsLess ⟨9223372036854775807, 0, []⟩ ⟨-1, 0, []⟩ = true ∧
      ¬((9223372036854775807 : Int) < -1 ∨
        ((9223372036854775807 : Int) = -1 ∧ (0 : Int) < 0)) ∧
      -twoPow63 ≤ (9223372036854775807 : Int) ∧ (9223372036854775807 : Int) < twoPow63 ∧
      -twoPow63 ≤ (-1 : Int) ∧ (-1 : Int) < twoPow63 := by
  refine ⟨by decide, by decide, by decide, by decide, by decide, by decide⟩

/-- C6 amended: restricted to Edits whose Start offsets are
non-negative int64 values — which every byte offset is — the comparator
places `a` strictly before `b` exactly when `a.Start < b.Start`, or
`a.Start = b.Start` and `a.End < b.End`. -/
theorem editsLess_lex_of_nonneg (a b : Edit)
    (ha0 : 0 ≤ a.Start) (ha : a.Start < twoPow63)
    (hb0 : 0 ≤ b.Start) (hb : b.Start < twoPow63) :
    (editsLess a b = true ↔
      (a.Start < b.Start ∨ (a.Start = b.Start ∧ a.End < b.End))) := by
  have hw : wrap64 (a.Start - b.Start) = a.Start - b.Start := by
    unfold wrap64
    have h1 : 0 ≤ a.Start - b.Start + twoPow63 := by
      unfold twoPow63 at *
      omega
    have h2 : a.Start - b.Start + twoPow63 < twoPow64 := by
      unfold twoPow63 twoPow64 at *
      omega
    rw [Int.emod_eq_of_lt h1 h2]
    ring
  unfold editsLess
  rw [hw]
  by_cases hd : a.Start - b.Start ≠ 0
  · rw [if_pos hd]
    simp only [decide_eq_true_eq]
    constructor
    · intro h
      left
      omega
    · rintro (h | ⟨h1, _⟩)
      · omega
      · omega
  · rw [if_neg hd]
    push_neg at hd
    simp only [decide_eq_true_eq]
    constructor
    · intro h
      right
      exact ⟨by omega, h⟩
    · rintro (h | ⟨_, h⟩)
      · omega
      · exact h

/-- C6 witness: `editsLess_lex_of_nonneg` at two concrete edits tied on
Start. -/
theorem editsLess_lex_of_nonneg_witness :
    (editsLess ⟨1, 2, []⟩ ⟨1, 3, []⟩ = true ↔
      ((1 : Int) < 1 ∨ ((1 : Int) = 1 ∧ (2 : Int) < 3))) :=
  editsLess_lex_of_nonneg ⟨1, 2, []⟩ ⟨1, 3, []⟩ (by decide) (by decide) (by decide) (by decide)

end GoLsp

namespace GoLsp

theorem validateLoop_ok_iff {L s0 le : Int} {l : List Edit} :
    (∃ s, validateLoop L s0 le l = .ok s) ↔
      ((∀ e ∈ l, inBounds L e = true) ∧ chainOk le l = true) := by
  induction l generalizing s0 le with
  | nil => simp [validateLoop, chainOk]
  | cons e rest ih =>
    simp only [validateLoop]
    split
    · rename_i hb
      constructor
      · rintro ⟨s, hs⟩
        exact Except.noConfusion hs
      · rintro ⟨hball, _⟩
        have h1 := hball e (List.mem_cons_self e rest)
        simp only [inBounds, decide_eq_true_eq] at h1
        omega
    · rename_i hb
      split
      · rename_i hov
        constructor
        · rintro ⟨s, hs⟩
          exact Except.noConfusion hs
        · rintro ⟨_, hch⟩
          simp only [chainOk, Bool.and_eq_true, decide_eq_true_eq] at hch
          omega
      · rename_i hov
        rw [ih]
        push_neg at hb
        constructor
        · rintro ⟨hball, hch⟩
          refine ⟨?_, ?_⟩
          · intro x hx
            rcases List.mem_cons.mp hx with hx | hx
            · subst hx
              simp only [inBounds, decide_eq_true_eq]
              omega
            · exact hball x hx
          · simp only [chainOk, Bool.and_eq_true, decide_eq_true_eq]
            exact ⟨by omega, hch⟩
        · rintro ⟨hball, hch⟩
          simp only [chainOk, Bool.and_eq_true, decide_eq_true_eq] at hch
          exact ⟨fun x hx => hball x (List.mem_cons_of_mem e hx), hch.2⟩

theorem validateLoop_oob_iff {L s0 le : Int} {l : List Edit}
    (hch : chainOk le l = true) :
    validateLoop L s0 le l = .error .outOfBounds ↔
      ¬(∀ e ∈ l, inBounds L e = true) := by
  induction l generalizing s0 le with
  | nil => simp [validateLoop]
  | cons e rest ih =>
    simp only [chainOk, Bool.and_eq_true, decide_eq_true_eq] at hch
    simp only [validateLoop]
    split
    · rename_i hb
      constructor
      · intro _
        intro hall
        have h1 := hall e (List.mem_cons_self e rest)
        simp only [inBounds, decide_eq_true_eq] at h1
        omega
      · intro _
        rfl
    · rename_i hb
      push_neg at hb
      rw [if_neg (by omega)]
      rw [ih hch.2]
      constructor
      · intro hno hall
        exact hno fun x hx => hall x (List.mem_cons_of_mem e hx)
      · intro hno
        intro hall
        refine hno ?_
        intro x hx
        rcases List.mem_cons.mp hx with hx | hx
        · subst hx
          simp only [inBounds, decide_eq_true_eq]
          omega
        · exact hall x hx

theorem validateLoop_overlap_iff {L s0 le : Int} {l : List Edit}
    (hb : ∀ e ∈ l, inBounds L e = true) :
    validateLoop L s0 le l = .error .overlapping ↔ ¬(chainOk le l = true) := by
  induction l generalizing s0 le with
  | nil => simp [validateLoop, chainOk]
  | cons e rest ih =>
    have h1 := hb e (List.mem_cons_self e rest)
    simp only [inBounds, decide_eq_true_eq] at h1
    simp only [validateLoop]
    rw [if_neg (by omega)]
    split
    · rename_i hov
      constructor
      · intro _
        simp only [chainOk, Bool.and_eq_true, decide_eq_true_eq]
        omega
      · intro _
        rfl
    · rename_i hov
      rw [ih fun x hx => hb x (List.mem_cons_of_mem e hx)]
      simp only [chainOk, Bool.and_eq_true, decide_eq_true_eq]
      constructor
      · intro hno hc
        exact hno hc.2
      · intro hno hc
        push_neg at hov
        exact hno ⟨by omega, hc⟩

theorem validate_error_iff {src : List Char} {edits : List Edit} {er : DiffError} :
    validate src edits = .error er ↔
      validateLoop (src.length : Int) (src.length : Int) 0 (canonical edits) = .error er := by
  unfold validate
  cases h : validateLoop (src.length : Int) (src.length : Int) 0 (canonical edits) with
  | error e => simp [Except.map]
  | ok s => simp [Except.map]

theorem validate_isOk_iff {src : List Char} {edits : List Edit} :
    (∃ p, validate src edits = .ok p) ↔
      (∃ s, validateLoop (src.length : Int) (src.length : Int) 0 (canonical edits) = .ok s) := by
  unfold validate
  cases h : validateLoop (src.length : Int) (src.length : Int) 0 (canonical edits) with
  | error e => simp [Except.map]
  | ok s => simp [Except.map]

end GoLsp

namespace GoLsp

/-- C3 counterexample: on a 10-byte buffer with the already-sorted
edits [{0,3}, {2,5}, {4,200}], the edit {4,200} is out of bounds, yet
`validate` reports the overlapping error: the scan hits the overlap of
{2,5} with {0,3} before reaching the out-of-bounds edit, so "returns
the out-of-bounds error exactly when some edit violates bounds" fails. -/
theorem validate_error_kind_cex :
    validate "0123456789".data [⟨0, 3, []⟩, ⟨2, 5, []⟩, ⟨4, 200, []⟩]
        = .error .overlapping ∧
      validate "0123456789".data [⟨0, 3, []⟩, ⟨2, 5, []⟩, ⟨4, 200, []⟩]
        ≠ .error .outOfBounds ∧
      ¬(∀ e ∈ ([⟨0, 3, []⟩, ⟨2, 5, []⟩, ⟨4, 200, []⟩] : List Edit),
          inBounds ("0123456789".data.length : Int) e = true) := by
  have h1 : validate "0123456789".data [⟨0, 3, []⟩, ⟨2, 5, []⟩, ⟨4, 200, []⟩]
      = .error .overlapping := rfl
  refine ⟨h1, ?_, by decide⟩
  rw [h1]
  intro hc
  injection hc with hc
  exact DiffError.noConfusion hc

/-- C3 amended: `validate` succeeds exactly when every edit satisfies
`0 ≤ Start ≤ End ≤ L` and the canonically ordered scan never moves
backwards; when the scan is overlap-free the out-of-bounds error
appears exactly when some edit is out of bounds, and when all edits are
in bounds the overlapping error appears exactly when the scan overlaps;
when both violations are present the scan reports whichever check fails
first. The two concrete examples behave as claimed, and an error
result carries no output. -/
theorem validate_error_characterization (src : List Char) (edits : List Edit) :
    ((∃ p, validate src edits = .ok p) ↔
      ((∀ e ∈ edits, inBounds (src.length : Int) e = true) ∧
        chainOk 0 (canonical edits) = true)) ∧
      (chainOk 0 (canonical edits) = true →
        (validate src edits = .error .outOfBounds ↔
          ¬(∀ e ∈ edits, inBounds (src.length : Int) e = true))) ∧
      ((∀ e ∈ edits, inBounds (src.length : Int) e = true) →
        (validate src edits = .error .overlapping ↔
          ¬(chainOk 0 (canonical edits) = true))) ∧
      validate "0123456789".data [⟨0, 100, "x".data⟩] = .error .outOfBounds ∧
      validate "0123456789".data [⟨2, 5, []⟩, ⟨4, 6, []⟩] = .error .overlapping := by
  have hmem : ∀ e : Edit, e ∈ canonical edits ↔ e ∈ edits :=
    fun e => (canonical_perm edits).mem_iff
  have hball : (∀ e ∈ canonical edits, inBounds (src.length : Int) e = true) ↔
      (∀ e ∈ edits, inBounds (src.length : Int) e = true) := by
    constructor
    · intro h e he
      exact h e ((hmem e).mpr he)
    · intro h e he
      exact h e ((hmem e).mp he)
  refine ⟨?_, ?_, ?_, rfl, rfl⟩
  · rw [validate_isOk_iff, validateLoop_ok_iff, hball]
  · intro hch
    rw [validate_error_iff, validateLoop_oob_iff hch, hball]
  · intro hb
    rw [validate_error_iff, validateLoop_overlap_iff (hball.mpr hb)]

/-- C3 amended witness: the characterization instantiated on a concrete
buffer and edit list. -/
theorem validate_error_characterization_witness :
    ((∃ p, validate "ab".data [⟨0, 1, "Z".data⟩] = .ok p) ↔
      ((∀ e ∈ ([⟨0, 1, "Z".data⟩] : List Edit), inBounds ("ab".data.length : Int) e = true) ∧
        chainOk 0 (canonical [⟨0, 1, "Z".data⟩]) = true)) ∧
      (chainOk 0 (canonical [⟨0, 1, "Z".data⟩]) = true →
        (validate "ab".data [⟨0, 1, "Z".data⟩] = .error .outOfBounds ↔
          ¬(∀ e ∈ ([⟨0, 1, "Z".data⟩] : List Edit),
              inBounds ("ab".data.length : Int) e = true))) ∧
      ((∀ e ∈ ([⟨0, 1, "Z".data⟩] : List Edit),
          inBounds ("ab".data.length : Int) e = true) →
        (validate "ab".data [⟨0, 1, "Z".data⟩] = .error .overlapping ↔
          ¬(chainOk 0 (canonical [⟨0, 1, "Z".data⟩]) = true))) ∧
      validate "0123456789".data [⟨0, 100, "x".data⟩] = .error .outOfBounds ∧
      validate "0123456789".data [⟨2, 5, []⟩, ⟨4, 6, []⟩] = .error .overlapping :=
  validate_error_characterization "ab".data [⟨0, 1, "Z".data⟩]

end GoLsp

namespace GoLsp

theorem leLex_of_editsLess_false {x y : Edit} (hx : startInRange x) (hy : startInRange y)
    (h : editsLess y x = false) : leLex x y := by
  have hiff := editsLess_lex_of_nonneg y x hy.1 hy.2 hx.1 hx.2
  have hn : ¬(y.Start < x.Start ∨ (y.Start = x.Start ∧ y.End < x.End)) := by
    intro hc
    rw [hiff.mpr hc] at h
    exact Bool.noConfusion h
  simp only [leLex, keyLe, editKey]
  omega

theorem leLex_of_editsLess_true {x y : Edit} (hx : startInRange x) (hy : startInRange y)
    (h : editsLess y x = true) : leLex y x := by
  have hlt := (editsLess_lex_of_nonneg y x hy.1 hy.2 hx.1 hx.2).mp h
  simp only [leLex, keyLe, editKey]
  omega

theorem leLex_trans {a b c : Edit} (h1 : leLex a b) (h2 : leLex b c) : leLex a c := by
  simp only [leLex, keyLe, editKey] at *
  omega

theorem insertStable_pairwise {x : Edit} {l : List Edit}
    (hx : startInRange x) (hl : ∀ y ∈ l, startInRange y)
    (hp : l.Pairwise leLex) : (insertStable x l).Pairwise leLex := by
  induction l with
  | nil => simp [insertStable]
  | cons y ys ih =>
    have hy := hl y (List.mem_cons_self y ys)
    have hys : ∀ z ∈ ys, startInRange z := fun z hz => hl z (List.mem_cons_of_mem y hz)
    rcases List.pairwise_cons.mp hp with ⟨hyall, hpys⟩
    simp only [insertStable]
    split
    · rename_i hyx
      refine List.pairwise_cons.mpr ⟨?_, ih hys hpys⟩
      intro z hz
      rcases List.mem_cons.mp ((insertStable_perm x ys).mem_iff.mp hz) with hz | hz
      · subst hz
        exact leLex_of_editsLess_true hx hy hyx
      · exact hyall z hz
    · rename_i hyx
      have hxy : leLex x y :=
        leLex_of_editsLess_false hx hy (Bool.eq_false_iff.mpr hyx)
      refine List.pairwise_cons.mpr ⟨?_, hp⟩
      intro z hz
      rcases List.mem_cons.mp hz with hz | hz
      · subst hz
        exact hxy
      · exact leLex_trans hxy (hyall z hz)

theorem sortEdits_pairwise {l : List Edit} (hl : ∀ e ∈ l, startInRange e) :
    (sortEdits l).Pairwise leLex := by
  induction l with
  | nil => simp [sortEdits]
  | cons x xs ih =>
    simp only [sortEdits]
    refine insertStable_pairwise (hl x (List.mem_cons_self x xs)) ?_
      (ih fun e he => hl e (List.mem_cons_of_mem x he))
    intro y hy
    exact hl y (List.mem_cons_of_mem x ((sortEdits_perm xs).mem_iff.mp hy))

theorem pairwise_of_isSorted {l : List Edit} (hl : ∀ e ∈ l, startInRange e)
    (hs : isSorted l = true) : l.Pairwise leLex := by
  induction l with
  | nil => simp
  | cons x xs ih =>
    cases xs with
    | nil => simp
    | cons y ys =>
      simp only [isSorted, Bool.and_eq_true, Bool.not_eq_true'] at hs
      obtain ⟨h1, h2⟩ := hs
      have hx := hl x (List.mem_cons_self x (y :: ys))
      have hyys : ∀ e ∈ y :: ys, startInRange e :=
        fun e he => hl e (List.mem_cons_of_mem x he)
      have hrest := ih hyys h2
      have hxy : leLex x y := leLex_of_editsLess_false hx
        (hyys y (List.mem_cons_self y ys)) h1
      refine List.pairwise_cons.mpr ⟨?_, hrest⟩
      intro z hz
      rcases List.mem_cons.mp hz with hz | hz
      · subst hz
        exact hxy
      · exact leLex_trans hxy
          ((List.pairwise_cons.mp hrest).1 z hz)

theorem canonical_pairwise {l : List Edit} (hl : ∀ e ∈ l, startInRange e) :
    (canonical l).Pairwise leLex := by
  unfold canonical
  split
  · rename_i hs
    exact pairwise_of_isSorted hl hs
  · exact sortEdits_pairwise hl

end GoLsp

namespace GoLsp

theorem fromLoop_ok_spec {m : Mapper} {l : List Edit} {tes : List TextEdit}
    (h : fromLoop m l = .ok tes) :
    tes.length = l.length ∧
      ∀ i (hi : i < tes.length) (hi' : i < l.length),
        (tes.get ⟨i, hi⟩).newText = (l.get ⟨i, hi'⟩).New ∧
        m.OffsetRange (l.get ⟨i, hi'⟩).Start (l.get ⟨i, hi'⟩).End
          = .ok (tes.get ⟨i, hi⟩).range := by
  induction l generalizing tes with
  | nil =>
    simp only [fromLoop] at h
    injection h with h
    subst h
    exact ⟨rfl, fun i hi _ => absurd hi (by simp)⟩
  | cons e rest ih =>
    simp only [fromLoop] at h
    split at h
    · exact Except.noConfusion h
    · rename_i rng hrng
      split at h
      · exact Except.noConfusion h
      · rename_i tail htail
        injection h with h
        subst h
        obtain ⟨hlen, hcorr⟩ := ih htail
        refine ⟨by simp [hlen], ?_⟩
        intro i hi hi'
        cases i with
        | zero => exact ⟨rfl, hrng.symm ▸ rfl⟩
        | succ j =>
          have hj : j < tail.length := by
            simp only [List.length_cons] at hi
            omega
          have hj' : j < rest.length := by
            simp only [List.length_cons] at hi'
            omega
          exact hcorr j hj hj'

/-- C8: on success, `EditsFromDiffEdits` returns one TextEdit per input
edit, in the order of the input edits re-sorted ascending by
`(start, end)`: the sorted sequence is a permutation of the input that
is pairwise ordered, and position `i` of the output carries the
replacement text of position `i` of the sorted sequence together with
the Mapper's range for its offsets. Start offsets are assumed to be
byte offsets (non-negative int64 values). -/
theorem editsFromDiffEdits_sorted_correspondence (m : Mapper) (edits : List Edit)
    (tes : List TextEdit)
    (hr : ∀ e ∈ edits, startInRange e)
    (h : EditsFromDiffEdits m edits = .ok tes) :
    List.Perm (sortEdits edits) edits ∧
      (sortEdits edits).Pairwise leLex ∧
      tes.length = edits.length ∧
      ∀ i (hi : i < tes.length) (hi' : i < (sortEdits edits).length),
        (tes.get ⟨i, hi⟩).newText = ((sortEdits edits).get ⟨i, hi'⟩).New ∧
        m.OffsetRange ((sortEdits edits).get ⟨i, hi'⟩).Start
            ((sortEdits edits).get ⟨i, hi'⟩).End
          = .ok (tes.get ⟨i, hi⟩).range := by
  unfold EditsFromDiffEdits at h
  obtain ⟨hlen, hcorr⟩ := fromLoop_ok_spec h
  refine ⟨sortEdits_perm edits, sortEdits_pairwise hr,
    by rw [hlen, (sortEdits_perm edits).length_eq], hcorr⟩

/-- C8 witness: `editsFromDiffEdits_sorted_correspondence` on a
two-edit list supplied in reverse order, under the concrete line-zero
Mapper. -/
theorem editsFromDiffEdits_sorted_correspondence_witness :
    List.Perm (sortEdits [⟨2, 3, "b".data⟩, ⟨0, 1, "a".data⟩]) [⟨2, 3, "b".data⟩, ⟨0, 1, "a".data⟩] ∧
      (sortEdits [⟨2, 3, "b".data⟩, ⟨0, 1, "a".data⟩]).Pairwise leLex ∧
      ([⟨⟨⟨0, 0⟩, ⟨0, 1⟩⟩, "a".data⟩, ⟨⟨⟨0, 2⟩, ⟨0, 3⟩⟩, "b".data⟩] : List TextEdit).length
          = ([⟨2, 3, "b".data⟩, ⟨0, 1, "a".data⟩] : List Edit).length ∧
      ∀ i (hi : i < ([⟨⟨⟨0, 0⟩, ⟨0, 1⟩⟩, "a".data⟩, ⟨⟨⟨0, 2⟩, ⟨0, 3⟩⟩, "b".data⟩] : List TextEdit).length)
        (hi' : i < (sortEdits [⟨2, 3, "b".data⟩, ⟨0, 1, "a".data⟩]).length),
        (([⟨⟨⟨0, 0⟩, ⟨0, 1⟩⟩, "a".data⟩, ⟨⟨⟨0, 2⟩, ⟨0, 3⟩⟩, "b".data⟩] : List TextEdit).get ⟨i, hi⟩).newText
            = ((sortEdits [⟨2, 3, "b".data⟩, ⟨0, 1, "a".data⟩]).get ⟨i, hi'⟩).New ∧
        lineZeroMapper.OffsetRange ((sortEdits [⟨2, 3, "b".data⟩, ⟨0, 1, "a".data⟩]).get ⟨i, hi'⟩).Start
            ((sortEdits [⟨2, 3, "b".data⟩, ⟨0, 1, "a".data⟩]).get ⟨i, hi'⟩).End
          = .ok (([⟨⟨⟨0, 0⟩, ⟨0, 1⟩⟩, "a".data⟩, ⟨⟨⟨0, 2⟩, ⟨0, 3⟩⟩, "b".data⟩] : List TextEdit).get ⟨i, hi⟩).range :=
  editsFromDiffEdits_sorted_correspondence lineZeroMapper
    [⟨2, 3, "b".data⟩, ⟨0, 1, "a".data⟩]
    [⟨⟨⟨0, 0⟩, ⟨0, 1⟩⟩, "a".data⟩, ⟨⟨⟨0, 2⟩, ⟨0, 3⟩⟩, "b".data⟩]
    (by decide) rfl

theorem roundtrip_loop (m : Mapper)
    (hm : ∀ s e, ∃ r, m.OffsetRange s e = .ok r ∧ m.RangeOffsets r = .ok (s, e)) :
    ∀ l : List Edit, ∃ tes, fromLoop m l = .ok tes ∧ toLoop m tes = .ok l := by
  intro l
  induction l with
  | nil => exact ⟨[], rfl, rfl⟩
  | cons e rest ih =>
    obtain ⟨tes, h1, h2⟩ := ih
    obtain ⟨r, hr1, hr2⟩ := hm e.Start e.End
    refine ⟨⟨r, e.New⟩ :: tes, ?_, ?_⟩
    · simp only [fromLoop]
      rw [hr1, h1]
    · simp only [toLoop]
      rw [hr2, h2]

/-- C7: whenever the Mapper's `RangeOffsets` is a left inverse of its
`OffsetRange` (the composite returns the original pair with no error),
`EditsToDiffEdits` after `EditsFromDiffEdits` succeeds and returns an
edit sequence with exactly the members of the original sequence. -/
theorem edits_roundtrip (m : Mapper) (edits : List Edit)
    (hm : ∀ s e, ∃ r, m.OffsetRange s e = .ok r ∧ m.RangeOffsets r = .ok (s, e)) :
    ∃ tes res, EditsFromDiffEdits m edits = .ok tes ∧
      EditsToDiffEdits m tes = .ok res ∧ ∀ x, x ∈ res ↔ x ∈ edits := by
  obtain ⟨tes, h1, h2⟩ := roundtrip_loop m hm (sortEdits edits)
  exact ⟨tes, sortEdits edits, h1, h2, fun x => (sortEdits_perm edits).mem_iff⟩

/-- C7 witness: the round trip on a concrete two-edit sequence under
the line-zero Mapper. -/
theorem edits_roundtrip_witness :
    ∃ tes res, EditsFromDiffEdits lineZeroMapper [⟨4, 6, "q".data⟩, ⟨1, 2, "p".data⟩] = .ok tes ∧
      EditsToDiffEdits lineZeroMapper tes = .ok res ∧
      ∀ x, x ∈ res ↔ x ∈ ([⟨4, 6, "q".data⟩, ⟨1, 2, "p".data⟩] : List Edit) :=
  edits_roundtrip lineZeroMapper [⟨4, 6, "q".data⟩, ⟨1, 2, "p".data⟩]
    (fun s e => ⟨⟨⟨0, s⟩, ⟨0, e⟩⟩, rfl, rfl⟩)

end GoLsp

namespace GoLsp

theorem map_key_eq_of_sorted_perm {l l' : List Edit}
    (hperm : List.Perm l l')
    (hs : l.Pairwise leLex) (hs' : l'.Pairwise leLex) :
    l.map editKey = l'.map editKey := by
  have h1 : (l.map editKey).Pairwise keyLe := by
    rw [List.pairwise_map]
    exact hs
  have h2 : (l'.map editKey).Pairwise keyLe := by
    rw [List.pairwise_map]
    exact hs'
  exact List.eq_of_perm_of_sorted (hperm.map editKey) h1 h2

theorem chainOk_eq_of_keys {l l' : List Edit}
    (h : l.map editKey = l'.map editKey) :
    ∀ le, chainOk le l = chainOk le l' := by
  induction l generalizing l' with
  | nil =>
    cases l' with
    | nil => intro le; rfl
    | cons e' rest' => simp at h
  | cons e rest ih =>
    cases l' with
    | nil => simp at h
    | cons e' rest' =>
      simp only [List.map_cons, List.cons.injEq] at h
      obtain ⟨hk, hrest⟩ := h
      intro le
      have h1 : e.Start = e'.Start := congrArg Prod.fst hk
      have h2 : e.End = e'.End := congrArg Prod.snd hk
      simp only [chainOk, h1, h2, ih hrest]

theorem eq_of_keys_of_perm_of_nodup {l l' : List Edit}
    (hk : l.map editKey = l'.map editKey)
    (hperm : List.Perm l l')
    (hnd : (l.map editKey).Nodup) : l = l' := by
  induction l generalizing l' with
  | nil =>
    cases l' with
    | nil => rfl
    | cons e' rest' => simp at hk
  | cons a t ih =>
    cases l' with
    | nil => simp at hk
    | cons a' t' =>
      simp only [List.map_cons, List.cons.injEq] at hk
      obtain ⟨hka, hkt⟩ := hk
      simp only [List.map_cons, List.nodup_cons] at hnd
      obtain ⟨hnmem, hndt⟩ := hnd
      have haa : a = a' := by
        have hmem : a' ∈ a :: t := hperm.symm.mem_iff.mp (List.mem_cons_self a' t')
        rcases List.mem_cons.mp hmem with hx | hx
        · exact hx.symm
        · exfalso
          refine hnmem ?_
          rw [hka]
          exact List.mem_map_of_mem editKey hx
      subst haa
      have ht : List.Perm t t' := hperm.cons_inv
      exact congrArg (a :: ·) (ih hkt ht hndt)

theorem sum_contrib_eq_of_perm {l l' : List Edit} (h : List.Perm l l') :
    (l.map contrib).sum = (l'.map contrib).sum :=
  (h.map contrib).sum_eq

end GoLsp

namespace GoLsp

/-- C5 counterexample: the already-sorted tie [{1,1,"X"}, {1,1,"Y"}] on
"ab" validates to itself, but its permutation [{1,1,"Y"}, {1,1,"X"}]
validates to a different canonically sorted sequence (the stable sort
keeps the tied edits in their own input order), refuting "returns the
same canonically sorted edit sequence". -/
theorem validate_perm_not_same_sorted :
    List.Perm ([⟨1, 1, "X".data⟩, ⟨1, 1, "Y".data⟩] : List Edit)
        [⟨1, 1, "Y".data⟩, ⟨1, 1, "X".data⟩] ∧
      validate "ab".data [⟨1, 1, "X".data⟩, ⟨1, 1, "Y".data⟩]
        = .ok ([⟨1, 1, "X".data⟩, ⟨1, 1, "Y".data⟩], 4) ∧
      validate "ab".data [⟨1, 1, "Y".data⟩, ⟨1, 1, "X".data⟩]
        = .ok ([⟨1, 1, "Y".data⟩, ⟨1, 1, "X".data⟩], 4) ∧
      ([⟨1, 1, "Y".data⟩, ⟨1, 1, "X".data⟩] : List Edit)
        ≠ [⟨1, 1, "X".data⟩, ⟨1, 1, "Y".data⟩] :=
  ⟨List.Perm.swap _ _ _, rfl, rfl, by decide⟩

/-- C5 amended: if an edit sequence validates successfully then every
permutation of it validates successfully with the same computed output
size, and with a canonically sorted sequence that is a permutation of
the original one with identical `(Start, End)` key sequence; when no
two edits share a key the sorted sequences are identical (ties may be
returned in the permutation's own input order, by stability). -/
theorem validate_perm_invariant (src : List Char) (edits edits' : List Edit)
    (hperm : List.Perm edits edits')
    (hL : (src.length : Int) < twoPow63)
    (es : List Edit) (size : Int)
    (hok : validate src edits = .ok (es, size)) :
    ∃ es', validate src edits' = .ok (es', size) ∧ List.Perm es' es ∧
      es'.map editKey = es.map editKey ∧
      ((es.map editKey).Nodup → es' = es) := by
  obtain ⟨hes, hloop⟩ := validate_ok_parts hok
  subst hes
  obtain ⟨hball, hch⟩ := validateLoop_ok_iff.mp ⟨size, hloop⟩
  have hrange : ∀ e ∈ edits, startInRange e := by
    intro e he
    have hb := hball e ((canonical_perm edits).mem_iff.mpr he)
    simp only [inBounds, decide_eq_true_eq] at hb
    exact ⟨hb.1, by omega⟩
  have hrange' : ∀ e ∈ edits', startInRange e :=
    fun e he => hrange e (hperm.mem_iff.mpr he)
  have hs1 : (canonical edits).Pairwise leLex := canonical_pairwise hrange
  have hs2 : (canonical edits').Pairwise leLex := canonical_pairwise hrange'
  have hpc : List.Perm (canonical edits') (canonical edits) :=
    ((canonical_perm edits').trans hperm.symm).trans (canonical_perm edits).symm
  have hkeys : (canonical edits').map editKey = (canonical edits).map editKey :=
    map_key_eq_of_sorted_perm hpc hs2 hs1
  have hch' : chainOk 0 (canonical edits') = true := by
    rw [chainOk_eq_of_keys hkeys 0]
    exact hch
  have hball' : ∀ e ∈ canonical edits', inBounds (src.length : Int) e = true :=
    fun e he => hball e (hpc.mem_iff.mp he)
  obtain ⟨s', hloop'⟩ :=
    (@validateLoop_ok_iff (src.length : Int) (src.length : Int) 0 (canonical edits')).mpr
      ⟨hball', hch'⟩
  have hsum := validateLoop_ok_sum hloop
  have hsum' := validateLoop_ok_sum hloop'
  have hseq : ((canonical edits').map contrib).sum = ((canonical edits).map contrib).sum :=
    sum_contrib_eq_of_perm hpc
  have hss : s' = size := by omega
  subst hss
  refine ⟨canonical edits', ?_, hpc, hkeys, ?_⟩
  · unfold validate
    rw [hloop']
    rfl
  · intro hnd
    refine eq_of_keys_of_perm_of_nodup hkeys hpc ?_
    rw [hkeys]
    exact hnd

/-- C5 amended witness: `validate_perm_invariant` on a concrete
two-edit sequence and its reversal. -/
theorem validate_perm_invariant_witness :
    ∃ es', validate "abcd".data [⟨2, 3, "b".data⟩, ⟨0, 1, "a".data⟩] = .ok (es', 4) ∧
      List.Perm es' [⟨0, 1, "a".data⟩, ⟨2, 3, "b".data⟩] ∧
      es'.map editKey = ([⟨0, 1, "a".data⟩, ⟨2, 3, "b".data⟩] : List Edit).map editKey ∧
      ((([⟨0, 1, "a".data⟩, ⟨2, 3, "b".data⟩] : List Edit).map editKey).Nodup →
        es' = [⟨0, 1, "a".data⟩, ⟨2, 3, "b".data⟩]) :=
  validate_perm_invariant "abcd".data
    [⟨0, 1, "a".data⟩, ⟨2, 3, "b".data⟩] [⟨2, 3, "b".data⟩, ⟨0, 1, "a".data⟩]
    (List.Perm.swap _ _ _) (by decide)
    [⟨0, 1, "a".data⟩, ⟨2, 3, "b".data⟩] 4 rfl

end GoLsp
